import Mathlib

/-!
Verification development for the "subdir" repository (download a subdirectory
of a GitHub/GitLab repository as an archive).

Shallow embedding conventions:
* JavaScript strings are modeled as `List Char` (`JSString`): `s.startsWith(p)`
  is `List.isPrefixOf p s`, `s.slice(n)` is `List.drop n s`, `s.length` is
  `List.length`, `+` is `List.append`.
* File contents (`Uint8Array` / `Buffer`) are modeled as `List Nat` (`Bytes`).
* `async` functions that can throw are modeled in `Except JsError`; `await` is
  monadic bind, written as explicit `match` for proof transparency.
* The provider's view of the repository is the tree `PTree`: a listing is
  either a thrown error (`fail`) or an ordered sequence of entries (`nil` /
  `cons entry sub rest`), where `sub` is what `fetchContents` returns for
  `entry.path` (consulted only when the walker recurses into a directory).
* A provider's `downloadFile` is an abstract function
  `FileEntry → Except JsError Bytes`, matching the adapter capability
  contract; the transport of a single HTTP fetch is the oracle `FetchOutcome`.
-/

/-- JavaScript strings, modeled as lists of characters. -/
abbrev JSString := List Char

/-- Byte contents (`Uint8Array` / `Buffer`), modeled as lists of bytes. -/
abbrev Bytes := List Nat

/-- JS `s.startsWith(pre)`. -/
def jsStartsWith (s pre : JSString) : Bool := List.isPrefixOf pre s

/-- JS `s.slice(n)` for a nonnegative index `n`. -/
def jsSlice (s : JSString) (n : Nat) : JSString := List.drop n s

/-- The `type` field of `FileEntry` (web `lib/types.ts`, cli `types.ts`):
`"file" | "dir"`. -/
inductive EType where
  | file
  | dir
deriving DecidableEq

/-- `FileEntry` from `lib/types.ts`: one node of the repository tree as
reported by an adapter listing. -/
structure FileEntry where
  name : JSString
  path : JSString
  type : EType
  size : Nat
  downloadUrl : Option JSString
  sha : Option JSString
  id : Option JSString
deriving DecidableEq

/-- `DownloadErrorCode` from `lib/errors.ts`. -/
inductive DownloadErrorCode where
  | RATE_LIMITED
  | NOT_FOUND
  | AUTH_REQUIRED
  | INVALID_TOKEN
  | NETWORK_ERROR
  | EMPTY_DIRECTORY
  | FILE_TOO_LARGE
  | CORS_BLOCKED
  | INVALID_URL
  | PROVIDER_ERROR
deriving DecidableEq

/-- `DownloadError` from `lib/errors.ts`. -/
structure DownloadError where
  message : JSString
  code : DownloadErrorCode
  suggestion : JSString
  retryable : Bool
deriving DecidableEq

/-- `createEmptyDirectoryError` from `lib/errors.ts`. -/
def createEmptyDirectoryError : DownloadError :=
  { message := "Directory is empty".toList
    code := DownloadErrorCode.EMPTY_DIRECTORY
    suggestion := "Directory exists but contains no files".toList
    retryable := false }

/-- `createFileTooLargeError(filename)` from `lib/errors.ts`. -/
def createFileTooLargeError (filename : JSString) : DownloadError :=
  { message := "File too large: ".toList ++ filename
    code := DownloadErrorCode.FILE_TOO_LARGE
    suggestion := "File exceeds 100MB browser download limit".toList
    retryable := false }

/-- `createNetworkError` from `lib/errors.ts`. -/
def createNetworkError : DownloadError :=
  { message := "Network error".toList
    code := DownloadErrorCode.NETWORK_ERROR
    suggestion := "Check your connection".toList
    retryable := true }

/-- `createProviderError(message)` from `lib/errors.ts`. -/
def createProviderError (message : JSString) : DownloadError :=
  { message := message
    code := DownloadErrorCode.PROVIDER_ERROR
    suggestion := "Try again or check the URL".toList
    retryable := true }

/-- An exception escaping an engine function: either a `DownloadError` or a
rethrown `AbortError` (cancellation). -/
inductive JsError where
  | dl (e : DownloadError)
  | abortError
deriving DecidableEq

instance {ε α : Type} [DecidableEq ε] [DecidableEq α] : DecidableEq (Except ε α) := fun x y =>
  match x, y with
  | .error a, .error b =>
    if h : a = b then .isTrue (by rw [h]) else .isFalse (fun hc => h (by cases hc; rfl))
  | .ok a, .ok b =>
    if h : a = b then .isTrue (by rw [h]) else .isFalse (fun hc => h (by cases hc; rfl))
  | .error _, .ok _ => .isFalse (fun hc => Except.noConfusion hc)
  | .ok _, .error _ => .isFalse (fun hc => Except.noConfusion hc)

/-- `CONCURRENT_DOWNLOADS` from `lib/client-download.ts`. -/
def CONCURRENT_DOWNLOADS : Nat := 6

/-- `MAX_FILE_SIZE = 100 * 1024 * 1024` from the provider adapters. -/
def MAX_FILE_SIZE : Nat := 100 * 1024 * 1024

/-- The final step of the relative-path computation in `collectFiles`:
`relativePath.startsWith("/") ? relativePath.slice(1) : relativePath`. -/
def stripLeadingSlash (s : JSString) : JSString :=
  if jsStartsWith s ['/'] then jsSlice s 1 else s

/-- The conditional chain computing `relativePath` in `collectFiles`
(`lib/client-download.ts`), before the leading-slash strip:
`config.path ? (file.path.startsWith(config.path + "/") ? file.path.slice(config.path.length + 1) : file.path.startsWith(config.path) ? file.path.slice(config.path.length) : file.path) : file.path`. -/
def rawRelativePath (rootPath filePath : JSString) : JSString :=
  if rootPath ≠ [] then
    if jsStartsWith filePath (rootPath ++ ['/']) then jsSlice filePath (rootPath.length + 1)
    else if jsStartsWith filePath rootPath then jsSlice filePath rootPath.length
    else filePath
  else filePath

/-- The complete relative-path computation of `collectFiles`
(`lib/client-download.ts`): the conditional chain followed by the
leading-slash strip. Total by construction. -/
def relativePath (rootPath filePath : JSString) : JSString :=
  stripLeadingSlash (rawRelativePath rootPath filePath)

/-- The relativization rule as WORDED BY THE SPEC (section 4.3), for
comparison with the source computation `relativePath`: if `fullPath` equals
`rootPath` exactly, the file's own name; if `fullPath` starts with
`rootPath + "/"`, strip that prefix; otherwise `fullPath` verbatim stripped
of a leading slash. -/
def specRelativePathRule (rootPath filePath name : JSString) : JSString :=
  if filePath = rootPath then name
  else if jsStartsWith filePath (rootPath ++ ['/']) then jsSlice filePath (rootPath.length + 1)
  else stripLeadingSlash filePath

/-- The provider's view of the repository reachable from one listing call.
`fail e` models `fetchContents` throwing `e`; `nil` / `cons` model the ordered
entry list it resolves with, each entry paired with the listing that fetching
that entry's own path would produce (consulted by the walker only for
directory entries). -/
inductive PTree where
  | fail (e : JsError)
  | nil
  | cons (entry : FileEntry) (sub : PTree) (rest : PTree)
deriving DecidableEq

/-- `collectFilesRecursively` from `lib/client-download.ts`: walk the listing
in order; push `file` entries, recurse into `dir` entries (depth-first),
propagating the first thrown error. The `basePath` parameter of the source is
unused there and omitted. The returned list is the `collectedFiles`
accumulator in push order. -/
def collectFilesRecursively : PTree → Except JsError (List FileEntry)
  | .fail e => .error e
  | .nil => .ok []
  | .cons entry sub rest =>
    if entry.type = EType.file then
      match collectFilesRecursively rest with
      | .error e => .error e
      | .ok xs => .ok (entry :: xs)
    else
      match collectFilesRecursively sub with
      | .error e => .error e
      | .ok ys =>
        match collectFilesRecursively rest with
        | .error e => .error e
        | .ok xs => .ok (ys ++ xs)

/-- The `file`-kind entries reachable in a `PTree` (the walker's target set),
defined structurally and ignoring errors: the `N` discovered files. -/
def treeFiles : PTree → List FileEntry
  | .fail _ => []
  | .nil => []
  | .cons entry sub rest =>
    if entry.type = EType.file then entry :: treeFiles rest
    else treeFiles sub ++ treeFiles rest

/-- Names of the entries of one listing (the top level of a `PTree`). -/
def listingNames : PTree → List JSString
  | .fail _ => []
  | .nil => []
  | .cons entry _ rest => entry.name :: listingNames rest

/-- Provider path convention: the path of a child named `name` under `base`
(GitHub/GitLab/Bitbucket all report `base ++ "/" ++ name`, or just `name` at
the repository root). -/
def joinPath (base name : JSString) : JSString :=
  if base = [] then name else base ++ '/' :: name

/-- Well-formedness of a provider tree under a base path: entry names are
nonempty, contain no slash or backslash, sibling names are distinct, each
entry's path is its parent path joined with its name, and subtrees are
well-formed under the entry's path. This holds for listings of a real
repository tree. -/
def pathsOk (base : JSString) : PTree → Bool
  | .fail _ => true
  | .nil => true
  | .cons entry sub rest =>
    decide (entry.name ≠ []) && decide ('/' ∉ entry.name) && decide ('\\' ∉ entry.name)
    && decide (entry.path = joinPath base entry.name)
    && decide (entry.name ∉ listingNames rest)
    && pathsOk entry.path sub && pathsOk base rest

/-- `FileWithContent` from `lib/types.ts`. -/
structure FileWithContent where
  relativePath : JSString
  content : Bytes
deriving DecidableEq

/-- One download task of `downloadBatch` in `collectFiles`: await
`provider.downloadFile(file, config)`, then pair the content with the
computed relative path. -/
def downloadBatch (dl : FileEntry → Except JsError Bytes) (rootPath : JSString) :
    List FileEntry → Except JsError (List FileWithContent)
  | [] => .ok []
  | file :: rest =>
    match dl file with
    | .error e => .error e
    | .ok content =>
      match downloadBatch dl rootPath rest with
      | .error e => .error e
      | .ok others =>
        .ok ({ relativePath := relativePath rootPath file.path, content := content } :: others)

/-- The batching loop of `collectFiles`:
`for (let i = 0; i < files.length; i += CONCURRENT_DOWNLOADS)` slices
`files.slice(i, i + CONCURRENT_DOWNLOADS)`, awaits the batch, and appends its
results. -/
def processBatches (dl : FileEntry → Except JsError Bytes) (rootPath : JSString) :
    List FileEntry → Except JsError (List FileWithContent)
  | [] => .ok []
  | file :: rest =>
    match downloadBatch dl rootPath ((file :: rest).take CONCURRENT_DOWNLOADS) with
    | .error e => .error e
    | .ok batchResults =>
      match processBatches dl rootPath ((file :: rest).drop CONCURRENT_DOWNLOADS) with
      | .error e => .error e
      | .ok more => .ok (batchResults ++ more)
termination_by l => l.length
decreasing_by simp [CONCURRENT_DOWNLOADS]; omega

/-- The sequence of slices the batching loop of `collectFiles` dispatches:
group `i` is `files.slice(i, i + CONCURRENT_DOWNLOADS)`. -/
def scheduleBatches : List FileEntry → List (List FileEntry)
  | [] => []
  | file :: rest =>
    (file :: rest).take CONCURRENT_DOWNLOADS ::
      scheduleBatches ((file :: rest).drop CONCURRENT_DOWNLOADS)
termination_by l => l.length
decreasing_by simp [CONCURRENT_DOWNLOADS]; omega

/-- Sequential execution of a list of batches: each group is fully awaited
before the next one starts. -/
def runBatchesSequentially (dl : FileEntry → Except JsError Bytes) (rootPath : JSString) :
    List (List FileEntry) → Except JsError (List FileWithContent)
  | [] => .ok []
  | batch :: batches =>
    match downloadBatch dl rootPath batch with
    | .error e => .error e
    | .ok rs =>
      match runBatchesSequentially dl rootPath batches with
      | .error e => .error e
      | .ok more => .ok (rs ++ more)

/-- `collectFiles` from `lib/client-download.ts`: traverse, throw
`createEmptyDirectoryError` if zero files were discovered, then download in
batches. `dl` is `provider.downloadFile(·, config)`; `rootPath` is
`config.path`. -/
def collectFiles (dl : FileEntry → Except JsError Bytes) (rootPath : JSString) (t : PTree) :
    Except JsError (List FileWithContent) :=
  match collectFilesRecursively t with
  | .error e => .error e
  | .ok files =>
    if files.length = 0 then .error (JsError.dl createEmptyDirectoryError)
    else processBatches dl rootPath files

/-- The archive artifact assembled by `createAndDownloadZip`: the ordered
`relativePath → content` pairs handed to JSZip (`zip.file(relativePath, content)`
for each file, in order), plus the archive filename. Archive byte-encoding is
the library's concern and out of scope. -/
structure ZipArtifact where
  filename : JSString
  entries : List (JSString × Bytes)
deriving DecidableEq

/-- `createAndDownloadZip` from `lib/client-download.ts`, modeled up to its
value content: each `FileWithContent` contributes the entry
`(file.relativePath, file.content)`, stored verbatim. -/
def createAndDownloadZip (files : List FileWithContent) (filename : JSString) : ZipArtifact :=
  { filename := filename
    entries := files.map fun f => (f.relativePath, f.content) }

/-- JS `String.prototype.split(sep)` for a single-character separator. -/
def splitOnChar (c : Char) : JSString → List JSString
  | [] => [[]]
  | x :: xs =>
    match splitOnChar c xs with
    | [] => [[]]
    | g :: gs => if x = c then [] :: g :: gs else (x :: g) :: gs

/-- `downloadDirectory` from `lib/client-download.ts`: collect the files, name
the archive after the last nonempty path segment (falling back to the
repository name), and assemble the zip. `repoName` is `config.repo`. -/
def downloadDirectory (dl : FileEntry → Except JsError Bytes) (rootPath repoName : JSString)
    (t : PTree) : Except JsError ZipArtifact :=
  match collectFiles dl rootPath t with
  | .error e => .error e
  | .ok files =>
    let dirName :=
      if rootPath ≠ [] then
        (((splitOnChar '/' rootPath).filter fun s => s ≠ []).getLast?).getD repoName
      else repoName
    .ok (createAndDownloadZip files (dirName ++ ".zip".toList))

/-- The `type` field of a raw GitHub contents-API item
(`GitHubContent` in the cli `types.ts`): `"file" | "dir" | "symlink" | "submodule"`. -/
inductive GHType where
  | file
  | dir
  | symlink
  | submodule
deriving DecidableEq

/-- A raw GitHub contents-API item (`GitHubContent` in the cli `types.ts`). -/
structure GitHubContent where
  name : JSString
  path : JSString
  sha : JSString
  size : Nat
  download_url : Option JSString
  type : GHType
deriving DecidableEq

/-- The mapping step of the WEB GitHub adapter's `fetchContents`
(`lib/providers/github.ts`): `type: item.type === "dir" ? "dir" : "file"` —
every non-directory kind, symlinks and submodules included, is coerced to a
`file` entry. `size: item.size || 0` is `item.size` on the `Nat` model. -/
def webGithubMapContents (items : List GitHubContent) : List FileEntry :=
  items.map fun item =>
    { name := item.name
      path := item.path
      type := if item.type = GHType.dir then EType.dir else EType.file
      size := item.size
      downloadUrl := item.download_url
      sha := some item.sha
      id := none }

/-- The mapping step of the CLI GitHub adapter's `fetchContents`
(`cli/src/providers/github.ts`): items are first filtered to
`item.type === "file" || item.type === "dir"`, then mapped. -/
def cliGithubMapContents (items : List GitHubContent) : List FileEntry :=
  (items.filter fun item => item.type = GHType.file ∨ item.type = GHType.dir).map fun item =>
    { name := item.name
      path := item.path
      type := if item.type = GHType.dir then EType.dir else EType.file
      size := item.size
      downloadUrl := item.download_url
      sha := some item.sha
      id := none }

/-- The `type` field of a raw GitLab tree-API item: `"tree" | "blob"`. -/
inductive GLType where
  | tree
  | blob
deriving DecidableEq

/-- A raw GitLab tree-API item (`GitLabTreeItem` in the cli `types.ts`). -/
structure GitLabTreeItem where
  id : JSString
  name : JSString
  type : GLType
  path : JSString
deriving DecidableEq

/-- The mapping step of the GitLab adapters' `fetchContents`
(web `lib/providers/gitlab.ts` and cli `cli/src/providers/gitlab.ts`):
`type: item.type === "tree" ? "dir" : "file"`, and `size: 0` because the
GitLab tree API does not return a size. -/
def gitlabMapContents (items : List GitLabTreeItem) : List FileEntry :=
  items.map fun item =>
    { name := item.name
      path := item.path
      type := if item.type = GLType.tree then EType.dir else EType.file
      size := 0
      downloadUrl := none
      sha := none
      id := some item.id }

/-- Outcome of the single HTTP `fetch` a `downloadFile` call performs. `body`
models `response.arrayBuffer()`; `blobContent` models the base64 `content`
field of `response.json()` for GitHub blob-API responses. `abortError` is the
rethrown cancellation; `netFailure` is any other transport exception, which
the adapters turn into `createNetworkError`. URL construction and headers
only select which request is issued and are abstracted by the oracle. -/
inductive FetchOutcome where
  | abortError
  | netFailure
  | response (ok : Bool) (status : Nat) (body : Bytes) (blobContent : JSString)
deriving DecidableEq

/-- JS truthiness of an optional string (`undefined` and `""` are falsy). -/
def jsTruthyStr : Option JSString → Bool
  | none => false
  | some s => s ≠ []

/-- Decimal rendering of a response status, as interpolated into error
messages. -/
def natToJs (n : Nat) : JSString := (toString n).toList

/-- The WEB GitHub adapter's `downloadFile` (`lib/providers/github.ts`):
reject oversized files with `createFileTooLargeError` before any fetch; use
the blob API (base64 `atob` decode, modeled by the `atob` parameter) when
`file.size > 1024 * 1024 && file.sha`; otherwise fetch the raw download URL
and return the response bytes verbatim. -/
def githubDownloadFile (atob : JSString → Bytes) (file : FileEntry) (net : FetchOutcome) :
    Except JsError Bytes :=
  if file.size > MAX_FILE_SIZE then .error (JsError.dl (createFileTooLargeError file.name))
  else if file.size > 1024 * 1024 && jsTruthyStr file.sha then
    match net with
    | .abortError => .error JsError.abortError
    | .netFailure => .error (JsError.dl createNetworkError)
    | .response ok status _ blobContent =>
      if ok then .ok (atob blobContent)
      else .error (JsError.dl (createProviderError
        ("Failed to download blob: ".toList ++ natToJs status)))
  else
    match net with
    | .abortError => .error JsError.abortError
    | .netFailure => .error (JsError.dl createNetworkError)
    | .response ok status body _ =>
      if ok then .ok body
      else .error (JsError.dl (createProviderError
        ("Failed to download file: ".toList ++ natToJs status)))

/-- The WEB GitLab adapter's `downloadFile` (`lib/providers/gitlab.ts`):
reject oversized files with `createFileTooLargeError` before the fetch;
otherwise fetch the raw file endpoint and return the response bytes
verbatim. -/
def gitlabDownloadFile (file : FileEntry) (net : FetchOutcome) : Except JsError Bytes :=
  if file.size > MAX_FILE_SIZE then .error (JsError.dl (createFileTooLargeError file.name))
  else
    match net with
    | .abortError => .error JsError.abortError
    | .netFailure => .error (JsError.dl createNetworkError)
    | .response ok status body _ =>
      if ok then .ok body
      else .error (JsError.dl (createProviderError
        ("Failed to download file: ".toList ++ natToJs status)))

/-- Holds of an exception exactly when it is the dedicated `FILE_TOO_LARGE`
download error. -/
def isFileTooLargeError : JsError → Prop
  | .dl d => d.code = DownloadErrorCode.FILE_TOO_LARGE
  | .abortError => False

/-- A path suffix under some base: a top-level entry name `n` (drawn from
`names`), possibly extended by a slash-separated remainder `r`. -/
def goodSuffix (names : List JSString) (x : JSString) : Prop :=
  ∃ n r, n ∈ names ∧ n ≠ [] ∧ '/' ∉ n ∧ '\\' ∉ n ∧ '\\' ∉ r ∧
    (r = [] ∨ ∃ s, r = '/' :: s) ∧ x = n ++ r

/-- Demo repository tree under root `src`: `a.txt` and `sub/b.txt`. -/
def entA : FileEntry :=
  { name := "a.txt".toList, path := "src/a.txt".toList, type := EType.file, size := 3,
    downloadUrl := none, sha := none, id := none }

/-- Demo directory entry `sub` under root `src`. -/
def entSub : FileEntry :=
  { name := "sub".toList, path := "src/sub".toList, type := EType.dir, size := 0,
    downloadUrl := none, sha := none, id := none }

/-- Demo file entry `sub/b.txt`. -/
def entB : FileEntry :=
  { name := "b.txt".toList, path := "src/sub/b.txt".toList, type := EType.file, size := 4,
    downloadUrl := none, sha := none, id := none }

/-- Demo provider tree: the listing of `src` holds `a.txt` and `sub`; the
listing of `src/sub` holds `b.txt`. -/
def tDemo : PTree :=
  PTree.cons entA PTree.nil
    (PTree.cons entSub (PTree.cons entB PTree.nil PTree.nil) PTree.nil)

/-- Demo adapter download function: returns a one-byte content determined by
the entry's size. -/
def dlDemo : FileEntry → Except JsError Bytes := fun f => .ok [f.size]

/-- The results `collectFiles` produces on `tDemo` with `dlDemo`. -/
def resultsDemo : List FileWithContent :=
  [{ relativePath := "a.txt".toList, content := [3] },
   { relativePath := "sub/b.txt".toList, content := [4] }]

/-- Demo adapter download function failing on `entB` only. -/
def dlFail : FileEntry → Except JsError Bytes := fun f =>
  if f = entB then .error (JsError.dl createNetworkError) else .ok [f.size]

/-- A discovered entry whose size field exceeds the cap. -/
def bigFile : FileEntry :=
  { name := "big.bin".toList, path := "src/big.bin".toList, type := EType.file,
    size := MAX_FILE_SIZE + 1, downloadUrl := none, sha := none, id := none }

/-- A raw GitLab tree item. -/
def glItem : GitLabTreeItem :=
  { id := "1".toList, name := "a.txt".toList, type := GLType.blob, path := "lib/a.txt".toList }

/-- The `FileEntry` the GitLab adapters produce for `glItem`. -/
def glEntry : FileEntry :=
  { name := "a.txt".toList, path := "lib/a.txt".toList, type := EType.file, size := 0,
    downloadUrl := none, sha := none, id := some "1".toList }

/-- A raw GitHub contents item of kind `symlink`. -/
def symlinkItem : GitHubContent :=
  { name := "link".toList, path := "src/link".toList, sha := "abc".toList, size := 3,
    download_url := some "u".toList, type := GHType.symlink }

/-- The `FileEntry` the WEB GitHub adapter produces for `symlinkItem`. -/
def symlinkEntry : FileEntry :=
  { name := "link".toList, path := "src/link".toList, type := EType.file, size := 3,
    downloadUrl := some "u".toList, sha := some "abc".toList, id := none }

/-- A single-file listing whose entry's path EQUALS the root path, as the
GitHub contents API returns when the configured path points at a file
(e.g. a pasted blob URL). -/
def blobEntry : FileEntry :=
  { name := "index.ts".toList, path := "src/index.ts".toList, type := EType.file, size := 10,
    downloadUrl := none, sha := none, id := none }

/-- The provider tree of the blob-URL scenario. -/
def blobTree : PTree := PTree.cons blobEntry PTree.nil PTree.nil

/-- An eight-entry download list, to exercise the batching schedule. -/
def filesDemo8 : List FileEntry := [entA, entA, entA, entA, entA, entA, entA, entA]


/-- JS `s.replace(pat, "")` for a STRING pattern, as used at
`cli/src/download.ts` line 27: scanning left to right, the first occurrence
of `pat` is removed; if `pat` does not occur, `s` is unchanged (an empty
pattern matches at index 0 and removing it changes nothing). -/
def jsReplaceOnce : JSString → JSString → JSString
  | [], _ => []
  | c :: rest, pat =>
    if List.isPrefixOf pat (c :: rest) then List.drop pat.length (c :: rest)
    else c :: jsReplaceOnce rest pat

/-- JS `s.includes(pat)`: whether `pat` occurs somewhere in `s`. -/
def jsIncludes : JSString → JSString → Bool
  | [], pat => decide (pat = [])
  | c :: rest, pat => List.isPrefixOf pat (c :: rest) || jsIncludes rest pat

/-- The CLI relative-path computation (`cli/src/download.ts` line 27):
`item.path.replace(basePath, "").replace(/^\//, "")` — remove the first
occurrence of `basePath` anywhere in the path, then strip one leading
slash. -/
def cliRelativePath (basePath itemPath : JSString) : JSString :=
  stripLeadingSlash (jsReplaceOnce itemPath basePath)

/-- `FileToDownload` from `cli/src/download.ts`. -/
structure FileToDownload where
  file : FileEntry
  relativePath : JSString
deriving DecidableEq

/-- `collectFiles` from `cli/src/download.ts`: walk the listing in order,
pairing each `file` item with its relative path (computed against the
original `basePath`), recursing into `dir` items depth-first, propagating the
first thrown error. -/
def cliCollectFiles (basePath : JSString) : PTree → Except JsError (List FileToDownload)
  | .fail e => .error e
  | .nil => .ok []
  | .cons entry sub rest =>
    if entry.type = EType.file then
      match cliCollectFiles basePath rest with
      | .error e => .error e
      | .ok xs =>
        .ok ({ file := entry, relativePath := cliRelativePath basePath entry.path } :: xs)
    else
      match cliCollectFiles basePath sub with
      | .error e => .error e
      | .ok ys =>
        match cliCollectFiles basePath rest with
        | .error e => .error e
        | .ok xs => .ok (ys ++ xs)

/-- The sequential download/write loop of the CLI `downloadDirectory`: each
file's content is fetched and written in turn; the first error aborts. The
on-disk destination is `join(outputDir, relativePath)`; the model records the
`(relativePath, bytes)` pairs written. -/
def cliDownloadLoop (dl : FileEntry → Except JsError Bytes) :
    List FileToDownload → Except JsError (List (JSString × Bytes))
  | [] => .ok []
  | f :: rest =>
    match dl f.file with
    | .error e => .error e
    | .ok data =>
      match cliDownloadLoop dl rest with
      | .error e => .error e
      | .ok ws => .ok ((f.relativePath, data) :: ws)

/-- Observable outcome of a successful CLI `downloadDirectory` run:
either the files written, or the zero-file early return, which logs
"No files found in directory." and completes WITHOUT error. -/
inductive CliOutcome where
  | completed (writes : List (JSString × Bytes))
  | noFiles
deriving DecidableEq

/-- `downloadDirectory` from `cli/src/download.ts`: collect the files; if
none were found, log and return successfully (no error is thrown); otherwise
download and write each file in turn. -/
def cliDownloadDirectory (dl : FileEntry → Except JsError Bytes) (basePath : JSString)
    (t : PTree) : Except JsError CliOutcome :=
  match cliCollectFiles basePath t with
  | .error e => .error e
  | .ok files =>
    if files.length = 0 then .ok CliOutcome.noFiles
    else
      match cliDownloadLoop dl files with
      | .error e => .error e
      | .ok ws => .ok (CliOutcome.completed ws)

theorem isPrefixOf_append_self (a b : List Char) : List.isPrefixOf a (a ++ b) = true := by
  induction a with
  | nil => simp [List.isPrefixOf]
  | cons x xs ih => simp [List.isPrefixOf, ih]

theorem jsStartsWith_cons_ne {c : Char} {xs : List Char} (hc : c ≠ '/') :
    jsStartsWith (c :: xs) ['/'] = false := by
  simp [jsStartsWith, List.isPrefixOf]
  exact fun h => absurd h.symm hc

theorem stripLeadingSlash_eq_self {x : JSString} (h : jsStartsWith x ['/'] = false) :
    stripLeadingSlash x = x := by
  simp [stripLeadingSlash, h]

theorem name_append_inj :
    ∀ (n1 n2 r1 r2 : List Char), '/' ∉ n1 → '/' ∉ n2 →
      (r1 = [] ∨ ∃ s, r1 = '/' :: s) → (r2 = [] ∨ ∃ s, r2 = '/' :: s) →
      n1 ++ r1 = n2 ++ r2 → n1 = n2 := by
  intro n1
  induction n1 with
  | nil =>
    intro n2 r1 r2 _ h2 hr1 _ heq
    cases n2 with
    | nil => rfl
    | cons b bs =>
      exfalso
      simp only [List.nil_append] at heq
      rcases hr1 with rfl | ⟨s, rfl⟩
      · exact List.cons_ne_nil _ _ heq.symm
      · have hb : b = '/' := by
          have := heq
          simp only [List.cons_append] at this ⊢
          exact (List.cons.injEq _ _ _ _ ▸ this).1.symm
        exact h2 (by simp [hb])
  | cons a as ih =>
    intro n2 r1 r2 h1 h2 hr1 hr2 heq
    cases n2 with
    | nil =>
      exfalso
      simp only [List.nil_append, List.cons_append] at heq
      rcases hr2 with rfl | ⟨s, rfl⟩
      · exact List.cons_ne_nil _ _ heq
      · have ha : a = '/' := (List.cons.injEq _ _ _ _ ▸ heq).1
        exact h1 (by simp [ha])
    | cons b bs =>
      simp only [List.cons_append, List.cons.injEq] at heq
      have hab : a = b := heq.1
      have htail : as = bs :=
        ih bs r1 r2 (fun hm => h1 (List.mem_cons_of_mem _ hm))
          (fun hm => h2 (List.mem_cons_of_mem _ hm)) hr1 hr2 heq.2
      rw [hab, htail]

theorem joinPath_inj {base x y : JSString} (h : joinPath base x = joinPath base y) : x = y := by
  unfold joinPath at h
  by_cases hb : base = []
  · simpa [hb] using h
  · simp only [hb, if_false, if_neg hb] at h
    simpa using List.append_cancel_left h

theorem joinPath_joinPath {base m x : JSString} (hm : m ≠ []) :
    joinPath (joinPath base m) x = joinPath base (m ++ '/' :: x) := by
  unfold joinPath
  by_cases hb : base = []
  · simp [hb, hm]
  · simp [hb, List.append_assoc]

theorem relativePath_joinPath {root x : JSString} {c : Char} {xs : List Char}
    (hx : x = c :: xs) (hc : c ≠ '/') :
    relativePath root (joinPath root x) = x := by
  have hns : jsStartsWith x ['/'] = false := by rw [hx]; exact jsStartsWith_cons_ne hc
  have hstrip : stripLeadingSlash x = x := stripLeadingSlash_eq_self hns
  by_cases hb : root = []
  · have hj : joinPath [] x = x := by simp [joinPath]
    rw [hb, hj]
    unfold relativePath rawRelativePath
    simp [hstrip]
  · have hjoin : joinPath root x = (root ++ ['/']) ++ x := by
      simp [joinPath, hb, List.append_assoc]
    have hpre : jsStartsWith ((root ++ ['/']) ++ x) (root ++ ['/']) = true :=
      isPrefixOf_append_self _ _
    have hlen : (root ++ ['/']).length = root.length + 1 := by simp
    unfold relativePath rawRelativePath
    rw [hjoin]
    simp only [hb, hpre, if_true, ne_eq, not_false_eq_true, if_pos]
    rw [jsSlice, ← hlen, List.drop_left]
    exact hstrip


theorem goodSuffix_mono {names names' : List JSString} {x : JSString}
    (hsub : ∀ n ∈ names, n ∈ names') (h : goodSuffix names x) : goodSuffix names' x := by
  obtain ⟨n, r, hn, h1, h2, h3, h4, h5, h6⟩ := h
  exact ⟨n, r, hsub n hn, h1, h2, h3, h4, h5, h6⟩

theorem goodSuffix_head {names : List JSString} {x : JSString} (h : goodSuffix names x) :
    ∃ c xs, x = c :: xs ∧ c ≠ '/' ∧ '\\' ∉ x := by
  obtain ⟨n, r, _, h1, h2, h3, h4, _, h6⟩ := h
  cases n with
  | nil => exact absurd rfl h1
  | cons c cs =>
    refine ⟨c, cs ++ r, by simp [h6], fun hc => h2 (by simp [hc]), ?_⟩
    rw [h6]
    intro hmem
    rcases List.mem_append.mp hmem with hm | hm
    · exact h3 hm
    · exact h4 hm

theorem treeFiles_wf :
    ∀ (t : PTree) (base : JSString), pathsOk base t = true →
      ((treeFiles t).map fun f => f.path).Nodup ∧
      ∀ f ∈ treeFiles t, ∃ x, goodSuffix (listingNames t) x ∧ f.path = joinPath base x := by
  intro t
  induction t with
  | fail e => intro base _; simp [treeFiles]
  | nil => intro base _; simp [treeFiles]
  | cons entry sub rest ihsub ihrest =>
    intro base h
    simp only [pathsOk, Bool.and_eq_true, decide_eq_true_eq] at h
    obtain ⟨⟨⟨⟨⟨⟨hname, hslash⟩, hbsl⟩, hpath⟩, hmem⟩, hsub⟩, hrest⟩ := h
    obtain ⟨hnodS, hdecS⟩ := ihsub entry.path hsub
    obtain ⟨hnodR, hdecR⟩ := ihrest base hrest
    by_cases htype : entry.type = EType.file
    · constructor
      · simp only [treeFiles, htype, if_true, List.map_cons, List.nodup_cons]
        refine ⟨?_, hnodR⟩
        intro hin
        obtain ⟨f, hf, hfp⟩ := List.mem_map.mp hin
        obtain ⟨x, hgood, hjoin⟩ := hdecR f hf
        obtain ⟨n, r, hn, hn1, hn2, _, _, hr, hx⟩ := hgood
        have heq : entry.name = n ++ r := by
          apply @joinPath_inj base
          rw [← hpath, ← hfp, hjoin, hx]
        have : entry.name = n := by
          have h0 : entry.name ++ [] = n ++ r := by simpa using heq
          exact name_append_inj entry.name n [] r hslash hn2 (Or.inl rfl) hr h0
        exact hmem (this ▸ hn)
      · intro f hf
        simp only [treeFiles, htype, if_true] at hf
        rcases List.mem_cons.mp hf with rfl | hf'
        · refine ⟨f.name, ⟨f.name, [], ?_, hname, hslash, hbsl, by simp, Or.inl rfl, by simp⟩, ?_⟩
          · simp [listingNames]
          · exact hpath
        · obtain ⟨x, hgood, hjoin⟩ := hdecR f hf'
          refine ⟨x, goodSuffix_mono ?_ hgood, hjoin⟩
          intro n hn
          simp [listingNames, hn]
    · have htf : treeFiles (PTree.cons entry sub rest) = treeFiles sub ++ treeFiles rest := by
        simp [treeFiles, htype]
      have hrebase : ∀ f ∈ treeFiles sub,
          ∃ x, goodSuffix (listingNames (PTree.cons entry sub rest)) x ∧
            f.path = joinPath base x := by
        intro f hf
        obtain ⟨x', hgood', hjoin'⟩ := hdecS f hf
        obtain ⟨n', r', _, hn1', hn2', hn3', hr3', _, hx'⟩ := hgood'
        refine ⟨entry.name ++ '/' :: x', ⟨entry.name, '/' :: x', by simp [listingNames],
          hname, hslash, hbsl, ?_, Or.inr ⟨x', rfl⟩, rfl⟩, ?_⟩
        · intro hbm
          rcases List.mem_cons.mp hbm with hc | hc
          · exact absurd hc.symm (by decide)
          · rw [hx'] at hc
            rcases List.mem_append.mp hc with hm | hm
            · exact hn3' hm
            · exact hr3' hm
        · rw [hjoin', hpath, joinPath_joinPath hname]
      constructor
      · rw [htf, List.map_append]
        rw [List.nodup_append]
        refine ⟨hnodS, hnodR, ?_⟩
        intro p hpS hpR
        obtain ⟨f1, hf1, hfp1⟩ := List.mem_map.mp hpS
        obtain ⟨f2, hf2, hfp2⟩ := List.mem_map.mp hpR
        obtain ⟨x1, hgood1, hjoin1⟩ := hdecS f1 hf1
        obtain ⟨x2, hgood2, hjoin2⟩ := hdecR f2 hf2
        obtain ⟨n2, r2, hn2mem, _, hn2s, _, _, hr2, hx2⟩ := hgood2
        have hjoin1' : f1.path = joinPath base (entry.name ++ '/' :: x1) := by
          rw [hjoin1, hpath, joinPath_joinPath hname]
        have heqx : entry.name ++ '/' :: x1 = x2 := by
          apply @joinPath_inj base
          rw [← hjoin1', ← hjoin2, hfp1, hfp2]
        have heqn : entry.name = n2 :=
          name_append_inj entry.name n2 ('/' :: x1) r2 hslash hn2s
            (Or.inr ⟨x1, rfl⟩) hr2 (by rw [← hx2, heqx])
        exact hmem (heqn ▸ hn2mem)
      · intro f hf
        rw [htf] at hf
        rcases List.mem_append.mp hf with hm | hm
        · exact hrebase f hm
        · obtain ⟨x, hgood, hjoin⟩ := hdecR f hm
          refine ⟨x, goodSuffix_mono ?_ hgood, hjoin⟩
          intro n hn
          simp [listingNames, hn]

theorem collectFilesRecursively_ok :
    ∀ (t : PTree) (l : List FileEntry), collectFilesRecursively t = .ok l → l = treeFiles t := by
  intro t
  induction t with
  | fail e => intro l h; simp [collectFilesRecursively] at h
  | nil =>
    intro l h
    simp only [collectFilesRecursively, Except.ok.injEq] at h
    rw [← h]; rfl
  | cons entry sub rest ihsub ihrest =>
    intro l h
    by_cases htype : entry.type = EType.file
    · simp only [collectFilesRecursively, htype, if_true] at h
      cases hrest : collectFilesRecursively rest with
      | error e => rw [hrest] at h; exact absurd h (by simp)
      | ok xs =>
        rw [hrest] at h
        simp only [Except.ok.injEq] at h
        rw [← h, treeFiles, if_pos htype, ihrest xs hrest]
    · simp only [collectFilesRecursively, htype, if_false] at h
      cases hsub : collectFilesRecursively sub with
      | error e => rw [hsub] at h; exact absurd h (by simp)
      | ok ys =>
        rw [hsub] at h
        cases hrest : collectFilesRecursively rest with
        | error e => rw [hrest] at h; exact absurd h (by simp)
        | ok xs =>
          rw [hrest] at h
          simp only [Except.ok.injEq] at h
          rw [← h, treeFiles, if_neg htype, ihsub ys hsub, ihrest xs hrest]

theorem nodup_map_transfer {α β γ : Type} (l : List α) (g : α → β) (f : α → γ)
    (hg : (l.map g).Nodup) (hinj : ∀ a ∈ l, ∀ b ∈ l, f a = f b → g a = g b) :
    (l.map f).Nodup := by
  induction l with
  | nil => simp
  | cons x xs ih =>
    simp only [List.map_cons, List.nodup_cons] at hg ⊢
    refine ⟨?_, ih hg.2 fun a ha b hb => hinj a (List.mem_cons_of_mem _ ha) b
      (List.mem_cons_of_mem _ hb)⟩
    intro hmemf
    obtain ⟨b, hb, hfb⟩ := List.mem_map.mp hmemf
    have : g b = g x := hinj b (List.mem_cons_of_mem _ hb) x (List.mem_cons_self _ _) hfb
    exact hg.1 (List.mem_map.mpr ⟨b, hb, this⟩)

/-- Over a well-formed tree, each reachable file's relative path recovers its
suffix under the root: it is nonempty, has no leading slash, contains no
backslash, and determines the full path. -/
theorem relativePath_of_wf {base : JSString} {t : PTree} (h : pathsOk base t = true)
    {f : FileEntry} (hf : f ∈ treeFiles t) :
    ∃ x, f.path = joinPath base x ∧ relativePath base f.path = x ∧
      x ≠ [] ∧ jsStartsWith x ['/'] = false ∧ '\\' ∉ x := by
  obtain ⟨_, hdec⟩ := treeFiles_wf t base h
  obtain ⟨x, hgood, hjoin⟩ := hdec f hf
  obtain ⟨c, xs, hx, hc, hbs⟩ := goodSuffix_head hgood
  refine ⟨x, hjoin, ?_, by simp [hx], by rw [hx]; exact jsStartsWith_cons_ne hc, hbs⟩
  rw [hjoin]
  exact relativePath_joinPath hx hc

/-- Over a well-formed tree, the relative paths of the reachable files are
pairwise distinct. -/
theorem relativePaths_nodup {base : JSString} {t : PTree} (h : pathsOk base t = true) :
    ((treeFiles t).map fun f => relativePath base f.path).Nodup := by
  obtain ⟨hnod, _⟩ := treeFiles_wf t base h
  refine nodup_map_transfer (treeFiles t) (fun f => f.path)
    (fun f => relativePath base f.path) hnod ?_
  intro a ha b hb hrel
  obtain ⟨xa, hja, hra, _, _, _⟩ := relativePath_of_wf h ha
  obtain ⟨xb, hjb, hrb, _, _, _⟩ := relativePath_of_wf h hb
  have hxab : xa = xb := by rw [← hra, ← hrb]; exact hrel
  show a.path = b.path
  rw [hja, hjb, hxab]

theorem downloadBatch_ok {dl : FileEntry → Except JsError Bytes} {root : JSString} :
    ∀ {files : List FileEntry} {res : List FileWithContent},
      downloadBatch dl root files = .ok res →
      res.map (fun w => w.relativePath) = files.map (fun f => relativePath root f.path) ∧
      ∀ f ∈ files, ∃ c, dl f = .ok c ∧
        ({ relativePath := relativePath root f.path, content := c } : FileWithContent) ∈ res := by
  intro files
  induction files with
  | nil =>
    intro res h
    simp only [downloadBatch, Except.ok.injEq] at h
    simp [← h]
  | cons file rest ih =>
    intro res h
    simp only [downloadBatch] at h
    cases hdl : dl file with
    | error e => rw [hdl] at h; exact absurd h (by simp)
    | ok c =>
      rw [hdl] at h
      cases hrest : downloadBatch dl root rest with
      | error e => rw [hrest] at h; exact absurd h (by simp)
      | ok others =>
        rw [hrest] at h
        simp only [Except.ok.injEq] at h
        obtain ⟨hmap, hall⟩ := ih hrest
        constructor
        · rw [← h]; simp [hmap]
        · intro f hf
          rcases List.mem_cons.mp hf with rfl | hf'
          · exact ⟨c, hdl, by rw [← h]; exact List.mem_cons_self _ _⟩
          · obtain ⟨c', hc', hmem'⟩ := hall f hf'
            exact ⟨c', hc', by rw [← h]; exact List.mem_cons_of_mem _ hmem'⟩

theorem downloadBatch_error_mem {dl : FileEntry → Except JsError Bytes} {root : JSString} :
    ∀ {files : List FileEntry} {e : JsError},
      downloadBatch dl root files = .error e → ∃ f ∈ files, dl f = .error e := by
  intro files
  induction files with
  | nil => intro e h; simp [downloadBatch] at h
  | cons file rest ih =>
    intro e h
    simp only [downloadBatch] at h
    cases hdl : dl file with
    | error e' =>
      rw [hdl] at h
      simp only [Except.error.injEq] at h
      exact ⟨file, List.mem_cons_self _ _, by rw [hdl, h]⟩
    | ok c =>
      rw [hdl] at h
      cases hrest : downloadBatch dl root rest with
      | error e' =>
        rw [hrest] at h
        simp only [Except.error.injEq] at h
        obtain ⟨f, hf, hfe⟩ := ih (h ▸ hrest)
        exact ⟨f, List.mem_cons_of_mem _ hf, hfe⟩
      | ok others => rw [hrest] at h; exact absurd h (by simp)

theorem downloadBatch_error_of_unique {dl : FileEntry → Except JsError Bytes} {root : JSString} :
    ∀ {files : List FileEntry} {f : FileEntry} {e : JsError},
      f ∈ files → dl f = .error e → (∀ g ∈ files, g ≠ f → ∃ c, dl g = .ok c) →
      downloadBatch dl root files = .error e := by
  intro files
  induction files with
  | nil => intro f e h; simp at h
  | cons file rest ih =>
    intro f e hf hfe hun
    by_cases hh : file = f
    · subst hh
      simp [downloadBatch, hfe]
    · obtain ⟨c, hc⟩ := hun file (List.mem_cons_self _ _) hh
      have hf' : f ∈ rest := by
        rcases List.mem_cons.mp hf with rfl | hf'
        · exact absurd rfl hh
        · exact hf'
      have : downloadBatch dl root rest = .error e :=
        ih hf' hfe fun g hg hgf => hun g (List.mem_cons_of_mem _ hg) hgf
      simp [downloadBatch, hc, this]

theorem downloadBatch_append {dl : FileEntry → Except JsError Bytes} {root : JSString} :
    ∀ (a b : List FileEntry),
      downloadBatch dl root (a ++ b) =
        match downloadBatch dl root a with
        | .error e => .error e
        | .ok xs =>
          match downloadBatch dl root b with
          | .error e => .error e
          | .ok ys => .ok (xs ++ ys)
  := by
  intro a b
  induction a with
  | nil =>
    simp only [List.nil_append, downloadBatch]
    cases hb : downloadBatch dl root b <;> simp
  | cons f a' ih =>
    simp only [List.cons_append, downloadBatch, List.append_eq]
    cases hdl : dl f with
    | error e => rfl
    | ok c =>
      rw [ih]
      cases ha : downloadBatch dl root a' with
      | error e => rfl
      | ok xs =>
        cases hb : downloadBatch dl root b with
        | error e => rfl
        | ok ys => simp

theorem processBatches_eq_downloadBatch (dl : FileEntry → Except JsError Bytes)
    (root : JSString) :
    ∀ files, processBatches dl root files = downloadBatch dl root files := by
  have key : ∀ (n : Nat) (files : List FileEntry), files.length ≤ n →
      processBatches dl root files = downloadBatch dl root files := by
    intro n
    induction n with
    | zero =>
      intro files hf
      have : files = [] := List.length_eq_zero.mp (Nat.le_zero.mp hf)
      subst this
      simp [processBatches, downloadBatch]
    | succ n ih =>
      intro files hf
      match files with
      | [] => simp [processBatches, downloadBatch]
      | file :: rest =>
        rw [processBatches]
        have hdrop : ((file :: rest).drop CONCURRENT_DOWNLOADS).length ≤ n := by
          simp only [List.length_drop, List.length_cons, CONCURRENT_DOWNLOADS]
          simp only [List.length_cons] at hf
          omega
        rw [ih _ hdrop]
        conv_rhs => rw [← List.take_append_drop CONCURRENT_DOWNLOADS (file :: rest)]
        rw [downloadBatch_append]
  exact fun files => key files.length files le_rfl

theorem scheduleBatches_sizes :
    ∀ files, ∀ b ∈ scheduleBatches files, b ≠ [] ∧ b.length ≤ CONCURRENT_DOWNLOADS := by
  have key : ∀ (n : Nat) (files : List FileEntry), files.length ≤ n →
      ∀ b ∈ scheduleBatches files, b ≠ [] ∧ b.length ≤ CONCURRENT_DOWNLOADS := by
    intro n
    induction n with
    | zero =>
      intro files hf
      have : files = [] := List.length_eq_zero.mp (Nat.le_zero.mp hf)
      subst this
      simp [scheduleBatches]
    | succ n ih =>
      intro files hf b hb
      match files with
      | [] => simp [scheduleBatches] at hb
      | file :: rest =>
        rw [scheduleBatches] at hb
        rcases List.mem_cons.mp hb with rfl | hb'
        · constructor
          · simp [CONCURRENT_DOWNLOADS]
          · simp only [List.length_take]
            exact min_le_left _ _
        · have hdrop : ((file :: rest).drop CONCURRENT_DOWNLOADS).length ≤ n := by
            simp only [List.length_drop, List.length_cons, CONCURRENT_DOWNLOADS]
            simp only [List.length_cons] at hf
            omega
          exact ih _ hdrop b hb'
  exact fun files => key files.length files le_rfl

theorem scheduleBatches_flatten :
    ∀ files, (scheduleBatches files).flatten = files := by
  have key : ∀ (n : Nat) (files : List FileEntry), files.length ≤ n →
      (scheduleBatches files).flatten = files := by
    intro n
    induction n with
    | zero =>
      intro files hf
      have : files = [] := List.length_eq_zero.mp (Nat.le_zero.mp hf)
      subst this
      simp [scheduleBatches]
    | succ n ih =>
      intro files hf
      match files with
      | [] => simp [scheduleBatches]
      | file :: rest =>
        rw [scheduleBatches]
        have hdrop : ((file :: rest).drop CONCURRENT_DOWNLOADS).length ≤ n := by
          simp only [List.length_drop, List.length_cons, CONCURRENT_DOWNLOADS]
          simp only [List.length_cons] at hf
          omega
        rw [List.flatten_cons, ih _ hdrop, List.take_append_drop]
  exact fun files => key files.length files le_rfl

theorem processBatches_eq_runBatches (dl : FileEntry → Except JsError Bytes)
    (root : JSString) :
    ∀ files, processBatches dl root files =
      runBatchesSequentially dl root (scheduleBatches files) := by
  have key : ∀ (n : Nat) (files : List FileEntry), files.length ≤ n →
      processBatches dl root files =
        runBatchesSequentially dl root (scheduleBatches files) := by
    intro n
    induction n with
    | zero =>
      intro files hf
      have : files = [] := List.length_eq_zero.mp (Nat.le_zero.mp hf)
      subst this
      simp [processBatches, scheduleBatches, runBatchesSequentially]
    | succ n ih =>
      intro files hf
      match files with
      | [] => simp [processBatches, scheduleBatches, runBatchesSequentially]
      | file :: rest =>
        rw [processBatches, scheduleBatches]
        have hdrop : ((file :: rest).drop CONCURRENT_DOWNLOADS).length ≤ n := by
          simp only [List.length_drop, List.length_cons, CONCURRENT_DOWNLOADS]
          simp only [List.length_cons] at hf
          omega
        rw [ih _ hdrop]
        rfl
  exact fun files => key files.length files le_rfl

/-- Success characterization of `collectFiles`: on success the traversal
succeeded with a nonempty file list and the whole list was downloaded. -/
theorem collectFiles_ok {dl : FileEntry → Except JsError Bytes} {root : JSString} {t : PTree}
    {results : List FileWithContent} (h : collectFiles dl root t = .ok results) :
    ∃ files, collectFilesRecursively t = .ok files ∧ files ≠ [] ∧
      downloadBatch dl root files = .ok results := by
  unfold collectFiles at h
  split at h
  · exact absurd h (by simp)
  · rename_i files heq
    split at h
    · exact absurd h (by simp)
    · rename_i hlen
      rw [processBatches_eq_downloadBatch] at h
      exact ⟨files, heq, fun hnil => hlen (by rw [hnil]; rfl), h⟩

theorem collectFiles_error_of_traversal {dl : FileEntry → Except JsError Bytes}
    {root : JSString} {t : PTree} {e : JsError}
    (h : collectFilesRecursively t = .error e) : collectFiles dl root t = .error e := by
  simp [collectFiles, h]

theorem collectFiles_empty {dl : FileEntry → Except JsError Bytes} {root : JSString} {t : PTree}
    (h : collectFilesRecursively t = .ok []) :
    collectFiles dl root t = .error (JsError.dl createEmptyDirectoryError) := by
  simp [collectFiles, h]

theorem collectFiles_error_of_download {dl : FileEntry → Except JsError Bytes}
    {root : JSString} {t : PTree} {files : List FileEntry} {f : FileEntry} {e : JsError}
    (hc : collectFilesRecursively t = .ok files) (hf : f ∈ files) (hfe : dl f = .error e)
    (hun : ∀ g ∈ files, g ≠ f → ∃ c, dl g = .ok c) :
    collectFiles dl root t = .error e := by
  have hlen : ¬ files.length = 0 := by
    intro h0
    rw [List.length_eq_zero.mp h0] at hf
    simp at hf
  have hdb : downloadBatch dl root files = .error e :=
    downloadBatch_error_of_unique hf hfe hun
  simp [collectFiles, hc, hlen, processBatches_eq_downloadBatch, hdb]

theorem collectFiles_no_spurious_empty {dl : FileEntry → Except JsError Bytes}
    {root : JSString} {t : PTree} {files : List FileEntry}
    (hc : collectFilesRecursively t = .ok files) (hne : files ≠ [])
    (hnd : ∀ f ∈ files, dl f ≠ .error (JsError.dl createEmptyDirectoryError)) :
    collectFiles dl root t ≠ .error (JsError.dl createEmptyDirectoryError) := by
  have hlen : ¬ files.length = 0 := by
    intro h0
    exact hne (List.length_eq_zero.mp h0)
  intro habs
  simp only [collectFiles, hc, hlen, if_false, if_neg hlen,
    processBatches_eq_downloadBatch] at habs
  obtain ⟨f, hf, hfe⟩ := downloadBatch_error_mem habs
  exact hnd f hf hfe

theorem downloadDirectory_error {dl : FileEntry → Except JsError Bytes}
    {root repoName : JSString} {t : PTree} {e : JsError}
    (h : collectFiles dl root t = .error e) :
    downloadDirectory dl root repoName t = .error e := by
  simp [downloadDirectory, h]

/-- C1: for every well-formed file set, a successful run's archive contains
exactly one entry per discovered file, keyed by its relative path, and the
bytes stored for each entry are exactly the bytes the adapter's
`downloadFile` returned, passed through without any transformation. -/
theorem collectFiles_archive_complete
    (t : PTree) (rootPath : JSString) (dl : FileEntry → Except JsError Bytes)
    (results : List FileWithContent) (filename : JSString)
    (hwf : pathsOk rootPath t = true)
    (hok : collectFiles dl rootPath t = .ok results) :
    (createAndDownloadZip results filename).entries.map Prod.fst =
      (treeFiles t).map (fun f => relativePath rootPath f.path) ∧
    ((createAndDownloadZip results filename).entries.map Prod.fst).Nodup ∧
    (createAndDownloadZip results filename).entries.length = (treeFiles t).length ∧
    ∀ f ∈ treeFiles t, ∃ c, dl f = .ok c ∧
      (relativePath rootPath f.path, c) ∈ (createAndDownloadZip results filename).entries := by
  obtain ⟨files, hcr, _, hdb⟩ := collectFiles_ok hok
  have hfe : files = treeFiles t := collectFilesRecursively_ok t files hcr
  obtain ⟨hmap, hall⟩ := downloadBatch_ok hdb
  have hkeys : (createAndDownloadZip results filename).entries.map Prod.fst =
      (treeFiles t).map (fun f => relativePath rootPath f.path) := by
    simp only [createAndDownloadZip, List.map_map]
    rw [← hfe]
    rw [← hmap]
    rfl
  refine ⟨hkeys, ?_, ?_, ?_⟩
  · rw [hkeys]
    exact relativePaths_nodup hwf
  · have h1 : (createAndDownloadZip results filename).entries.length = results.length := by
      simp [createAndDownloadZip]
    have h2 : results.length = files.length := by
      have := congrArg List.length hmap
      simpa using this
    rw [h1, h2, hfe]
  · intro f hf
    rw [← hfe] at hf
    obtain ⟨c, hc, hmem⟩ := hall f hf
    refine ⟨c, hc, ?_⟩
    have := List.mem_map_of_mem (fun w : FileWithContent => (w.relativePath, w.content)) hmem
    simpa [createAndDownloadZip] using this

/-- C2: for every well-formed repository tree, a completed traversal returns
exactly the reachable file entries — one per file at any nesting depth, in
particular exactly `N` of them — with zero duplicates. -/
theorem collectFilesRecursively_exhaustive
    (t : PTree) (base : JSString) (l : List FileEntry)
    (hwf : pathsOk base t = true) (h : collectFilesRecursively t = .ok l) :
    l = treeFiles t ∧ l.length = (treeFiles t).length ∧
    (l.map fun f => f.path).Nodup ∧ l.Nodup := by
  have hl : l = treeFiles t := collectFilesRecursively_ok t l h
  have hnod : (l.map fun f => f.path).Nodup := by
    rw [hl]
    exact (treeFiles_wf t base hwf).1
  exact ⟨hl, by rw [hl], hnod, List.Nodup.of_map _ hnod⟩

/-- C5: fail-fast propagation. An enumeration error aborts the operation with
that error; a failing file download (all other downloads succeeding) aborts
the operation with that error and produces no archive; and a run reported as
success implies the traversal completed and every discovered file's download
succeeded — nothing is silently dropped. -/
theorem failFast_propagation (dl : FileEntry → Except JsError Bytes)
    (rootPath repoName : JSString) (t : PTree) :
    (∀ e, collectFilesRecursively t = .error e →
      collectFiles dl rootPath t = .error e ∧
      downloadDirectory dl rootPath repoName t = .error e) ∧
    (∀ files f e, collectFilesRecursively t = .ok files → f ∈ files → dl f = .error e →
      (∀ g ∈ files, g ≠ f → ∃ c, dl g = .ok c) →
      collectFiles dl rootPath t = .error e ∧
      downloadDirectory dl rootPath repoName t = .error e) ∧
    (∀ results, collectFiles dl rootPath t = .ok results →
      ∃ files, collectFilesRecursively t = .ok files ∧ ∀ f ∈ files, ∃ c, dl f = .ok c) := by
  refine ⟨?_, ?_, ?_⟩
  · intro e he
    have h1 : collectFiles dl rootPath t = .error e := collectFiles_error_of_traversal he
    exact ⟨h1, downloadDirectory_error h1⟩
  · intro files f e hc hf hfe hun
    have h1 : collectFiles dl rootPath t = .error e :=
      collectFiles_error_of_download hc hf hfe hun
    exact ⟨h1, downloadDirectory_error h1⟩
  · intro results hok
    obtain ⟨files, hcr, _, hdb⟩ := collectFiles_ok hok
    obtain ⟨_, hall⟩ := downloadBatch_ok hdb
    exact ⟨files, hcr, fun f hf => (hall f hf).imp fun c hc => hc.1⟩

/-- C6 counterexample: at the CLI call site a traversal that completes with
zero files does NOT fail: `downloadDirectory` (cli) logs "No files found in
directory." and returns successfully — no `EmptyDirectory` error and nothing
downloaded. -/
theorem cli_empty_no_error_counterexample :
    cliCollectFiles "src".toList PTree.nil = .ok [] ∧
    cliDownloadDirectory dlDemo "src".toList PTree.nil = .ok CliOutcome.noFiles ∧
    cliDownloadDirectory dlDemo "src".toList PTree.nil ≠
      .error (JsError.dl createEmptyDirectoryError) := by
  decide

/-- C6 amended: in the WEB engine, a traversal that completes having
discovered zero files makes the operation fail with the `EMPTY_DIRECTORY`
error and produce no archive, and that error is raised only on a
confirmed-empty enumeration — a nonempty completed enumeration never yields
it (unless an adapter itself returned that very error for some file). The
CLI call site instead logs "No files found in directory." and returns
successfully, raising no error and downloading nothing. -/
theorem emptyDirectory_outcome (dl : FileEntry → Except JsError Bytes)
    (rootPath repoName : JSString) (t : PTree) :
    (collectFilesRecursively t = .ok [] →
      collectFiles dl rootPath t = .error (JsError.dl createEmptyDirectoryError) ∧
      downloadDirectory dl rootPath repoName t =
        .error (JsError.dl createEmptyDirectoryError)) ∧
    (∀ files, collectFilesRecursively t = .ok files → files ≠ [] →
      (∀ f ∈ files, dl f ≠ .error (JsError.dl createEmptyDirectoryError)) →
      collectFiles dl rootPath t ≠ .error (JsError.dl createEmptyDirectoryError)) ∧
    (cliCollectFiles rootPath t = .ok [] →
      cliDownloadDirectory dl rootPath t = .ok CliOutcome.noFiles) := by
  refine ⟨?_, ?_, ?_⟩
  · intro h
    have h1 := @collectFiles_empty dl rootPath t h
    exact ⟨h1, downloadDirectory_error h1⟩
  · intro files hc hne hnd
    exact collectFiles_no_spurious_empty hc hne hnd
  · intro h
    simp [cliDownloadDirectory, h]

theorem isPrefixOf_nil {pat : List Char} (h : List.isPrefixOf pat ([] : List Char) = true) :
    pat = [] := by
  cases pat with
  | nil => rfl
  | cons p ps => simp [List.isPrefixOf] at h

theorem jsReplaceOnce_of_leading {s pat : JSString} (h : List.isPrefixOf pat s = true) :
    jsReplaceOnce s pat = List.drop pat.length s := by
  cases s with
  | nil => rw [isPrefixOf_nil h]; rfl
  | cons c rest => simp [jsReplaceOnce, h]

theorem jsReplaceOnce_of_not_includes {s pat : JSString} (h : jsIncludes s pat = false) :
    jsReplaceOnce s pat = s := by
  induction s with
  | nil => rfl
  | cons c rest ih =>
    simp only [jsIncludes, Bool.or_eq_false_iff] at h
    simp [jsReplaceOnce, h.1, ih h.2]

/-- C3 counterexample: the engine's relative-path computation does NOT follow
the spec's three-case rule. When `fullPath` equals `rootPath` exactly the code
yields the empty string, not the file's own name; and a non-component prefix
such as `srcX` under root `src` gets the root's length stripped instead of
being kept verbatim. -/
theorem relativePath_spec_rule_counterexample :
    relativePath "src".toList "src".toList = [] ∧
    specRelativePathRule "src".toList "src".toList "src".toList = "src".toList ∧
    relativePath "src".toList "src".toList ≠
      specRelativePathRule "src".toList "src".toList "src".toList ∧
    relativePath "src".toList "srcX".toList = "X".toList ∧
    specRelativePathRule "src".toList "srcX".toList "srcX".toList = "srcX".toList := by
  decide

/-- C3 amended: the two implementations each follow their own code's rule,
not the spec's. The web engine (`client-download.ts`): with a nonempty root,
if `fullPath` starts with `rootPath + "/"`, that prefix is stripped;
otherwise if `fullPath` starts with `rootPath` (equality included — yielding
the empty string, not the file's own name — as well as non-component
prefixes), the first `rootPath.length` characters are stripped; otherwise
`fullPath` is kept; with an empty root, `fullPath` is kept. The CLI
(`download.ts` line 27) instead removes the FIRST occurrence of `rootPath`
ANYWHERE in the path (string-pattern `replace`): when the path starts with
`rootPath` this strips the first `rootPath.length` characters (again the
empty string on exact equality), and when `rootPath` does not occur the path
is kept. In every case one leading slash is then stripped. Both computations
are pure and total. -/
theorem relativePath_code_rule (rootPath filePath : JSString) :
    (rootPath = [] → relativePath rootPath filePath = stripLeadingSlash filePath) ∧
    (rootPath ≠ [] → jsStartsWith filePath (rootPath ++ ['/']) = true →
      relativePath rootPath filePath =
        stripLeadingSlash (jsSlice filePath (rootPath.length + 1))) ∧
    (rootPath ≠ [] → jsStartsWith filePath (rootPath ++ ['/']) = false →
      jsStartsWith filePath rootPath = true →
      relativePath rootPath filePath = stripLeadingSlash (jsSlice filePath rootPath.length)) ∧
    (rootPath ≠ [] → jsStartsWith filePath (rootPath ++ ['/']) = false →
      jsStartsWith filePath rootPath = false →
      relativePath rootPath filePath = stripLeadingSlash filePath) ∧
    (jsStartsWith filePath rootPath = true →
      cliRelativePath rootPath filePath =
        stripLeadingSlash (jsSlice filePath rootPath.length)) ∧
    (jsIncludes filePath rootPath = false →
      cliRelativePath rootPath filePath = stripLeadingSlash filePath) := by
  refine ⟨?_, ?_, ?_, ?_, ?_, ?_⟩
  · intro h1; unfold relativePath rawRelativePath; simp [h1]
  · intro h1 h2; unfold relativePath rawRelativePath; simp [h1, h2]
  · intro h1 h2 h3; unfold relativePath rawRelativePath; simp [h1, h2, h3]
  · intro h1 h2 h3; unfold relativePath rawRelativePath; simp [h1, h2, h3]
  · intro h1
    have h1' : List.isPrefixOf rootPath filePath = true := h1
    unfold cliRelativePath
    rw [jsReplaceOnce_of_leading h1']
    rfl
  · intro h1
    unfold cliRelativePath
    rw [jsReplaceOnce_of_not_includes h1]

theorem relativePath_code_rule_witness :
    (relativePath "src".toList "src/a.txt".toList =
      stripLeadingSlash (jsSlice "src/a.txt".toList ("src".toList.length + 1))) ∧
    (cliRelativePath "src".toList "src/a.txt".toList =
      stripLeadingSlash (jsSlice "src/a.txt".toList "src".toList.length)) :=
  ⟨(relativePath_code_rule "src".toList "src/a.txt".toList).2.1 (by decide) (by decide),
   (relativePath_code_rule "src".toList "src/a.txt".toList).2.2.2.2.1 (by decide)⟩

/-- C4 counterexample: a download task whose file path equals the root path —
as arises when the parsed URL points directly at a file (a blob URL), making
the contents API return that single file — gets the EMPTY relative path,
violating the claimed non-emptiness invariant. -/
theorem downloadTask_relativePath_empty_counterexample :
    collectFilesRecursively blobTree = .ok [blobEntry] ∧
    relativePath "src/index.ts".toList blobEntry.path = [] := by
  decide

/-- C4 amended: provided every discovered file lies strictly below the root
path (as holds for directory listings of a well-formed repository tree),
every download task's relative path is non-empty, has no leading slash, uses
forward-slash separators (contains no backslash), and is distinct from every
other task's relative path in the same operation. A file whose full path
equals the root path instead yields the empty relative path. -/
theorem downloadTask_relativePath_invariants
    (t : PTree) (rootPath : JSString) (files : List FileEntry)
    (hwf : pathsOk rootPath t = true) (h : collectFilesRecursively t = .ok files) :
    (∀ f ∈ files, relativePath rootPath f.path ≠ [] ∧
      jsStartsWith (relativePath rootPath f.path) ['/'] = false ∧
      '\\' ∉ relativePath rootPath f.path) ∧
    (files.map fun f => relativePath rootPath f.path).Nodup := by
  have hl : files = treeFiles t := collectFilesRecursively_ok t files h
  refine ⟨fun f hf => ?_, ?_⟩
  · obtain ⟨x, _, hr, hne, hns, hbs⟩ := relativePath_of_wf hwf (hl ▸ hf)
    rw [hr]
    exact ⟨hne, hns, hbs⟩
  · rw [hl]
    exact relativePaths_nodup hwf

theorem downloadTask_relativePath_invariants_witness :
    relativePath "src".toList entA.path ≠ [] ∧
    (([entA, entB]).map fun f => relativePath "src".toList f.path).Nodup := by
  have h := downloadTask_relativePath_invariants tDemo "src".toList [entA, entB]
    (by decide) (by decide)
  exact ⟨(h.1 entA (by decide)).1, h.2⟩

/-- C7: any discovered file whose size field exceeds the 100MB cap is
rejected by the web GitHub and GitLab adapters' `downloadFile` with the
dedicated `FILE_TOO_LARGE` error naming the file, for EVERY transport
outcome — i.e. before any content transfer is attempted. -/
theorem oversize_rejected_before_transfer (atob : JSString → Bytes) (file : FileEntry)
    (net : FetchOutcome) (h : file.size > MAX_FILE_SIZE) :
    githubDownloadFile atob file net =
      .error (JsError.dl (createFileTooLargeError file.name)) ∧
    gitlabDownloadFile file net = .error (JsError.dl (createFileTooLargeError file.name)) := by
  constructor
  · unfold githubDownloadFile
    rw [if_pos h]
  · unfold gitlabDownloadFile
    rw [if_pos h]

theorem oversize_rejected_before_transfer_witness :
    githubDownloadFile (fun _ => []) bigFile FetchOutcome.netFailure =
      .error (JsError.dl (createFileTooLargeError bigFile.name)) :=
  (oversize_rejected_before_transfer (fun _ => []) bigFile FetchOutcome.netFailure
    (by decide)).1

/-- C8 counterexample: a GitHub listing item of kind `symlink` is NOT
silently skipped by the web pipeline — the web adapter coerces it to a `file`
entry and the walker collects it for download. -/
theorem web_symlink_coerced_counterexample :
    webGithubMapContents [symlinkItem] = [symlinkEntry] ∧
    symlinkEntry.type = EType.file ∧
    collectFilesRecursively (PTree.cons symlinkEntry PTree.nil PTree.nil) =
      .ok [symlinkEntry] := by
  decide

/-- C8 amended: listing entries whose kind is neither `file` nor `dir`
(symlinks, submodules) are silently dropped by the CLI GitHub adapter's
filter — they are neither recursed into, nor downloaded, nor an error — while
the WEB GitHub adapter instead coerces every non-directory kind to a `file`
entry, which is then downloaded like a regular file. -/
theorem other_kind_entries_handling (i : GitHubContent) (xs ys : List GitHubContent)
    (h : i.type = GHType.symlink ∨ i.type = GHType.submodule) :
    cliGithubMapContents (xs ++ i :: ys) = cliGithubMapContents (xs ++ ys) ∧
    ∃ e, webGithubMapContents [i] = [e] ∧ e.type = EType.file := by
  have hnotfd : ¬ (i.type = GHType.file ∨ i.type = GHType.dir) := by
    rcases h with h | h <;> rw [h] <;> decide
  have hnotd : i.type ≠ GHType.dir := by
    rcases h with h | h <;> rw [h] <;> decide
  constructor
  · unfold cliGithubMapContents
    rw [List.filter_append, List.filter_append, List.filter_cons]
    simp [hnotfd]
  · refine ⟨_, rfl, ?_⟩
    simp [webGithubMapContents, hnotd]

theorem other_kind_entries_handling_witness :
    cliGithubMapContents ([] ++ symlinkItem :: []) = cliGithubMapContents ([] ++ []) ∧
    ∃ e, webGithubMapContents [symlinkItem] = [e] ∧ e.type = EType.file :=
  other_kind_entries_handling symlinkItem [] [] (by decide)

/-- C9: the scheduler dispatches downloads in groups of at most
`CONCURRENT_DOWNLOADS = 6` tasks: the dispatched batches are nonempty, of
size at most 6, partition the input list exactly, and the batching loop is
the sequential composition of the batches — each group is fully awaited
before the next one starts, so at no point are more than 6 fetches
outstanding. -/
theorem scheduler_bounded_batches (dl : FileEntry → Except JsError Bytes)
    (rootPath : JSString) (files : List FileEntry) :
    (∀ b ∈ scheduleBatches files, b ≠ [] ∧ b.length ≤ CONCURRENT_DOWNLOADS) ∧
    (scheduleBatches files).flatten = files ∧
    processBatches dl rootPath files =
      runBatchesSequentially dl rootPath (scheduleBatches files) :=
  ⟨scheduleBatches_sizes files, scheduleBatches_flatten files,
    processBatches_eq_runBatches dl rootPath files⟩

theorem scheduler_bounded_batches_witness :
    (filesDemo8.take CONCURRENT_DOWNLOADS).length ≤ CONCURRENT_DOWNLOADS ∧
    (scheduleBatches filesDemo8).flatten = filesDemo8 := by
  have h := scheduler_bounded_batches dlDemo "src".toList filesDemo8
  refine ⟨(h.1 (filesDemo8.take CONCURRENT_DOWNLOADS) ?_).2, h.2.1⟩
  rw [filesDemo8, scheduleBatches]
  exact List.mem_cons_self _ _

theorem gitlabDownloadFile_small {file : FileEntry} {net : FetchOutcome} {e : JsError}
    (hs : file.size ≤ MAX_FILE_SIZE) (he : gitlabDownloadFile file net = .error e) :
    ¬ isFileTooLargeError e := by
  unfold gitlabDownloadFile at he
  rw [if_neg (by omega)] at he
  cases net with
  | abortError =>
    simp only [Except.error.injEq] at he
    rw [← he]
    simp [isFileTooLargeError]
  | netFailure =>
    simp only [Except.error.injEq] at he
    rw [← he]
    simp [isFileTooLargeError, createNetworkError]
  | response ok status body blobContent =>
    by_cases hok : ok = true
    · rw [hok] at he
      simp at he
    · simp only [hok, if_false, Bool.false_eq_true, if_neg] at he
      simp only [Except.error.injEq] at he
      rw [← he]
      simp [isFileTooLargeError, createProviderError]

/-- C10: every `FileEntry` produced by the GitLab adapters' `fetchContents`
has `size = 0` (the GitLab tree API returns no size), so the size-cap check
in the GitLab `downloadFile` is unreachable for such entries: no download of
a GitLab-listed file ever fails with `FILE_TOO_LARGE`, whatever the file's
actual size or the transport outcome. -/
theorem gitlab_size_zero_no_fileTooLarge (items : List GitLabTreeItem) (f : FileEntry)
    (hf : f ∈ gitlabMapContents items) :
    f.size = 0 ∧
    ∀ net e, gitlabDownloadFile f net = .error e → ¬ isFileTooLargeError e := by
  obtain ⟨item, _, hfeq⟩ := List.mem_map.mp hf
  have hfz : f.size = 0 := by rw [← hfeq]
  exact ⟨hfz, fun net e he => gitlabDownloadFile_small (by rw [hfz]; decide) he⟩

theorem gitlab_size_zero_no_fileTooLarge_witness :
    glEntry.size = 0 ∧ ¬ isFileTooLargeError (JsError.dl createNetworkError) := by
  have h := gitlab_size_zero_no_fileTooLarge [glItem] glEntry (by decide)
  exact ⟨h.1, h.2 FetchOutcome.netFailure (JsError.dl createNetworkError) (by decide)⟩

theorem collectFiles_demo : collectFiles dlDemo "src".toList tDemo = .ok resultsDemo := by
  have h1 : collectFilesRecursively tDemo = .ok [entA, entB] := by decide
  have h2 : downloadBatch dlDemo "src".toList [entA, entB] = .ok resultsDemo := by decide
  simp [collectFiles, h1, processBatches_eq_downloadBatch]
  exact h2

theorem collectFiles_archive_complete_witness :
    ∃ c, dlDemo entA = .ok c ∧
      (relativePath "src".toList entA.path, c) ∈
        (createAndDownloadZip resultsDemo "src.zip".toList).entries := by
  have h := collectFiles_archive_complete tDemo "src".toList dlDemo resultsDemo
    "src.zip".toList (by decide) collectFiles_demo
  exact h.2.2.2 entA (by decide)

theorem collectFilesRecursively_exhaustive_witness :
    [entA, entB] = treeFiles tDemo ∧ ([entA, entB] : List FileEntry).Nodup := by
  have h := collectFilesRecursively_exhaustive tDemo "src".toList [entA, entB]
    (by decide) (by decide)
  exact ⟨h.1, h.2.2.2⟩

theorem failFast_propagation_witness :
    collectFiles dlFail "src".toList tDemo = .error (JsError.dl createNetworkError) :=
  ((failFast_propagation dlFail "src".toList "repo".toList tDemo).2.1 [entA, entB] entB
    (JsError.dl createNetworkError) (by decide) (by decide) (by decide)
    (fun g _ hne => ⟨[g.size], by simp [dlFail, hne]⟩)).1

theorem emptyDirectory_outcome_witness :
    collectFiles dlDemo "src".toList PTree.nil =
      .error (JsError.dl createEmptyDirectoryError) ∧
    cliDownloadDirectory dlDemo "src".toList PTree.nil = .ok CliOutcome.noFiles := by
  have h := emptyDirectory_outcome dlDemo "src".toList "repo".toList PTree.nil
  exact ⟨(h.1 (by decide)).1, h.2.2 (by decide)⟩
